import Mathlib

/-!
# AggreGator: the parse / split / aggregate / merge pipeline

A shallow embedding of `src/main/AggreGator.cpp`.

* `std::string` is `String`; the stream operations of the parser work on the
  character list of the line.
* `std::unordered_map<std::string, int>` is an association list with unique keys
  (`AList`).  Its iteration order is unspecified in C++; every statement below is
  about `lookup`, i.e. about the key set and the value stored at each key.
* `int` chunk sizes and offsets, and the counters that count records, are integers:
  they leave the range of `int` only with `2^31` or more records.
* The merge of arbitrary partial summaries adds arbitrary `int` counts.  It is given
  twice: `aggregateResults` adds exactly, `aggregateResults32` adds as the `int` of the
  program does, the sum reduced modulo `2^32` to the range of `int`.
  The two agree whenever no sum leaves the range of `int`
  (`aggregateResults32_eq_of_inRange`), and both are invariant under permutation and
  regrouping of the partial summaries; statements about the value of a sum of arbitrary
  counts are made on `aggregateResults32`.
* An operation with undefined behaviour (the division by a zero chunk count, an
  iterator range outside the vector) makes the embedded function return `none`.
* The threads of `main` only run `processLogs` on disjoint copies of the chunks
  and are joined in chunk order, so the embedding maps `processLogs` over the
  chunks.
* Reading the file or the output of `log show` is input to `main`: the embedding
  takes the text the source yields as a parameter, and the value of
  `std::thread::hardware_concurrency()` as another.
-/

namespace AggreGator

/-! ## Data structures -/

/-- One parsed log line: `struct LogEntry`. -/
structure LogEntry where
  timestamp : String
  level : String
  message : String
deriving DecidableEq, Repr

/-- The type `std::unordered_map<std::string, int>`. -/
abbrev CountMap := AList (fun _ : String => Int)

namespace CountMap

/-- The value `m[k]` refers to: the stored count, or the value-initialised `0`
that `operator[]` inserts for a missing key. -/
def valueAt (m : CountMap) (k : String) : Int := (m.lookup k).getD 0

/-- The statement `m[k] += c` with the sum formed exactly: the key is inserted when
missing, also for `c = 0`.  It is the statement of the program as long as the sum lies in
the range of `int`; `addAt32` is the statement on all of `int`. -/
def addAt (m : CountMap) (k : String) (c : Int) : CountMap :=
  m.insert k (m.valueAt k + c)

/-- The statement `m[k]++`. -/
def incr (m : CountMap) (k : String) : CountMap :=
  m.insert k (m.valueAt k + 1)

/-- Two maps hold the same keys with the same counts. -/
def Same (a b : CountMap) : Prop := ∀ k : String, a.lookup k = b.lookup k

end CountMap

/-- The two counters of a run: `struct ResultSummary`. -/
structure ResultSummary where
  frequencyByLevel : CountMap
  errorCounts : CountMap

namespace ResultSummary

/-- The default-constructed summary: both maps empty. -/
def empty : ResultSummary := ⟨∅, ∅⟩

/-- Two summaries have the same key sets and the same counts in both maps. -/
def Same (a b : ResultSummary) : Prop :=
  CountMap.Same a.frequencyByLevel b.frequencyByLevel ∧
    CountMap.Same a.errorCounts b.errorCounts

end ResultSummary

/-! ## Log reader: the parser loop of `parseLogs` -/

/-- The whitespace of `operator>>` in the classic locale (`std::isspace`):
space, `\t`, `\n`, `\v`, `\f`, `\r`. -/
def isspace (c : Char) : Bool :=
  c.toNat = 32 || (9 ≤ c.toNat && c.toNat ≤ 13)

/-- The extraction `iss >> str` on the unread part of the line: leading whitespace is
skipped, then characters are taken up to the next whitespace or the end.  The result is the
token and the unread rest; `none` when no character could be extracted (the stream
fails). -/
def extractToken (s : List Char) : Option (List Char × List Char) :=
  let s1 := s.dropWhile isspace
  let tok := s1.takeWhile (fun c => !isspace c)
  if tok.isEmpty then none else some (tok, s1.dropWhile (fun c => !isspace c))

/-- The call `std::getline(iss, entry.message)` on the unread rest: everything up to
the first newline, nothing skipped.  On an exhausted stream the message stays the empty
string of the fresh entry. -/
def getlineRest (s : List Char) : List Char := s.takeWhile (fun c => c != Char.ofNat 10)

/-- The body of the parser loop for one line: `none` is the `continue` taken when
`iss >> entry.timestamp >> entry.level` fails, `some entry` is the `push_back`. -/
def parseLine (line : String) : Option LogEntry :=
  match extractToken line.data with
  | none => none
  | some (ts, r1) =>
    match extractToken r1 with
    | none => none
    | some (lv, r2) =>
      some { timestamp := String.mk ts, level := String.mk lv,
             message := String.mk (getlineRest r2) }

/-- The lines that repeated `std::getline(ss, line)` reads from a text: the text is cut
at each newline, and a call that can extract nothing ends the loop. -/
def getlines : List Char → List (List Char)
  | [] => []
  | c :: rest =>
    if c = Char.ofNat 10 then [] :: getlines rest
    else
      match getlines rest with
      | [] => [[c]]
      | l :: ls => (c :: l) :: ls

/-- The parser loop run over the lines read: each line gives one record or is skipped. -/
def parseLines (lines : List String) : List LogEntry := lines.filterMap parseLine

/-- The parser loop of `parseLogs`, from the text collected in the string stream. -/
def parseLogs (text : String) : List LogEntry :=
  parseLines ((getlines text.data).map String.mk)

/-- The non-empty pieces of a character list split at whitespace. -/
def pieces (s : List Char) : List (List Char) :=
  (s.splitOnP isspace).filter (fun t => !t.isEmpty)

/-- The whitespace-delimited tokens of a line: the line is split at every whitespace
character and the empty pieces are dropped. -/
def tokens (line : String) : List String := (pieces line.data).map String.mk

/-- The message the line grammar of the specification describes: the remainder of the
line after the level token, with one separating whitespace character stripped if present. -/
def specMessage (line : String) : Option String :=
  match extractToken line.data with
  | none => none
  | some (_, r1) =>
    match extractToken r1 with
    | none => none
    | some (_, r2) =>
      some (String.mk (match r2 with
        | [] => []
        | c :: r => if isspace c then r else c :: r))

/-! ## Log processor -/

/-- The body of the loop of `processLogs` for one entry. -/
def processEntry (summary : ResultSummary) (entry : LogEntry) : ResultSummary :=
  let frequencyByLevel := summary.frequencyByLevel.incr entry.level
  if entry.level = "ERROR" then
    ⟨frequencyByLevel, summary.errorCounts.incr entry.message⟩
  else
    ⟨frequencyByLevel, summary.errorCounts⟩

/-- Counts of one chunk: `processLogs`. -/
def processLogs (logs : List LogEntry) : ResultSummary :=
  logs.foldl processEntry ResultSummary.empty

/-! ## Aggregator -/

/-- One inner loop of `aggregateResults`: `for (k, count) in src: acc[k] += count`. -/
def addAll (acc src : CountMap) : CountMap :=
  src.entries.foldl (fun a e => a.addAt e.1 e.2) acc

/-- The body of the outer loop of `aggregateResults` for one partial result. -/
def mergeInto (aggregated res : ResultSummary) : ResultSummary :=
  ⟨addAll aggregated.frequencyByLevel res.frequencyByLevel,
   addAll aggregated.errorCounts res.errorCounts⟩

/-- Merge of the partial results: `aggregateResults`. -/
def aggregateResults (partialResults : List ResultSummary) : ResultSummary :=
  partialResults.foldl mergeInto ResultSummary.empty

/-! ## Aggregator in the arithmetic of `int` -/

/-- The value an `int` holds after the sum `x` was formed in it: `x` itself when `x` lies
in the range of `int`, otherwise `x` reduced modulo `2^32` into that range (two's
complement wrap-around, which is what the compiled program does; the C++ standard leaves
the overflow undefined). -/
def wrapInt (x : Int) : Int := (x + 2147483648) % 4294967296 - 2147483648

/-- The value `x` lies in the range of `int`, from `-2^31` to `2^31 - 1`. -/
def inIntRange (x : Int) : Bool := decide (-2147483648 ≤ x) && decide (x ≤ 2147483647)

/-- The statement `m[k] += c` on `int` counts. -/
def CountMap.addAt32 (m : CountMap) (k : String) (c : Int) : CountMap :=
  m.insert k (wrapInt (m.valueAt k + c))

/-- One inner loop of `aggregateResults` on `int` counts. -/
def addAll32 (acc src : CountMap) : CountMap :=
  src.entries.foldl (fun a e => a.addAt32 e.1 e.2) acc

/-- The body of the outer loop of `aggregateResults` on `int` counts. -/
def mergeInto32 (aggregated res : ResultSummary) : ResultSummary :=
  ⟨addAll32 aggregated.frequencyByLevel res.frequencyByLevel,
   addAll32 aggregated.errorCounts res.errorCounts⟩

/-- The function `aggregateResults` on `int` counts. -/
def aggregateResults32 (partialResults : List ResultSummary) : ResultSummary :=
  partialResults.foldl mergeInto32 ResultSummary.empty

/-- No addition of the loop `for (k, count) in src: acc[k] += count` leaves the range of
`int`. -/
def addAllInRange (acc src : CountMap) : Bool :=
  src.entries.all (fun e => inIntRange (acc.valueAt e.1 + e.2))

/-- No addition leaves the range of `int` when the maps are merged, in the order of the
list, into the accumulator `acc`. -/
def mergeInRange : CountMap → List CountMap → Bool
  | _, [] => true
  | acc, m :: ms => addAllInRange acc m && mergeInRange (addAll acc m) ms

/-- No addition performed by `aggregateResults` on the partial results leaves the range of
`int`: every count stored in them and every running sum of the counts of a key lies
between `-2^31` and `2^31 - 1`. -/
def aggregateInRange (partialResults : List ResultSummary) : Bool :=
  mergeInRange ∅ (partialResults.map (fun p => p.frequencyByLevel)) &&
    mergeInRange ∅ (partialResults.map (fun p => p.errorCounts))

/-! ## Chunking -/

/-- The offset of `start` in `logs` for chunk `i`: `logs.begin() + i * chunkSize`. -/
def chunkStart (chunkSize i : Nat) : Nat := i * chunkSize

/-- The offset of `end` for chunk `i`: `logs.end()` for the last chunk, else
`start + chunkSize`. -/
def chunkEnd (n numChunks chunkSize i : Nat) : Nat :=
  if i = numChunks - 1 then n else chunkStart chunkSize i + chunkSize

/-- The range constructor `chunks.emplace_back(start, end)`: defined when
`start ≤ end` and both lie inside the vector. -/
def copyRange (logs : List LogEntry) (start stop : Nat) : Option (List LogEntry) :=
  if start ≤ stop ∧ stop ≤ logs.length then some ((logs.drop start).take (stop - start))
  else none

/-- The function `splitLogs`.  A chunk count of `0` divides by zero.  A negative chunk
count is converted to a huge unsigned divisor, which gives chunk size `0`, and the loop
does not run. -/
def splitLogs (logs : List LogEntry) (numChunks : Int) : Option (List (List LogEntry)) :=
  if numChunks = 0 then none
  else
    let chunkSize := logs.length / numChunks.toNat
    (List.range numChunks.toNat).mapM fun i =>
      copyRange logs (chunkStart chunkSize i) (chunkEnd logs.length numChunks.toNat chunkSize i)

/-- The stages of `main` after reading, for a given thread count: split, one
`processLogs` per chunk, merge. -/
def runPipeline (logs : List LogEntry) (numThreads : Int) : Option ResultSummary :=
  (splitLogs logs numThreads).map fun chunks => aggregateResults (chunks.map processLogs)

/-- The entry a count of `n` records leaves in a map: none for `0`, else `n`. -/
def countEntry (n : Nat) : Option Int := if n = 0 then none else some (n : Int)

/-- Number of records of level `L`. -/
def levelCount (logs : List LogEntry) (L : String) : Nat :=
  logs.countP (fun e => e.level = L)

/-- Number of records of level `"ERROR"` with message `M`. -/
def errorCount (logs : List LogEntry) (M : String) : Nat :=
  logs.countP (fun e => e.level = "ERROR" ∧ e.message = M)

/-- The summary `s` counts the records `logs` exactly: `s.frequencyByLevel[L]` is the number
of records of level `L`, `s.errorCounts[M]` is the number of records of level `"ERROR"` with
message `M`, and a key is present exactly when its count is not `0`. -/
def CountsExact (logs : List LogEntry) (s : ResultSummary) : Prop :=
  (∀ L : String,
    (L ∈ s.frequencyByLevel ↔ levelCount logs L ≠ 0) ∧
      s.frequencyByLevel.valueAt L = (levelCount logs L : Int)) ∧
  (∀ M : String,
    (M ∈ s.errorCounts ↔ errorCount logs M ≠ 0) ∧
      s.errorCounts.valueAt M = (errorCount logs M : Int))

/-- The entry the merge of `maps` holds at `k`: the sum of the counts stored at `k` in
the maps that contain `k`, and no entry when none contains it. -/
def mergedEntry (maps : List CountMap) (k : String) : Option Int :=
  let vs := maps.filterMap (fun m => m.lookup k)
  if vs = [] then none else some vs.sum

/-- The sum of all counts stored in a map. -/
def CountMap.total (m : CountMap) : Int := (m.entries.map (fun e => e.2)).sum

/-- The cross-field relation of a summary: the counts of `errorCounts` add up to
`frequencyByLevel["ERROR"]`, taken as `0` when the key is absent. -/
def ResultSummary.Balanced (s : ResultSummary) : Prop :=
  s.errorCounts.total = s.frequencyByLevel.valueAt "ERROR"

/-! ## Command line interface -/

/-- What one run of `main` does. -/
inductive MainResult where
  /-- Fewer than two arguments: the usage text is printed and `main` returns `1`. -/
  | usage
  /-- The log reader returned no record: `No logs to process.` goes to `std::cerr` and
  `main` returns `1`; nothing is split, processed, merged or displayed. -/
  | noLogs
  /-- The merged summary is displayed and `main` returns `0`. -/
  | displayed (finalSummary : ResultSummary)

/-- The return value of `main`. -/
def MainResult.status : MainResult → Int
  | MainResult.usage => 1
  | MainResult.noLogs => 1
  | MainResult.displayed _ => 0

/-- What `main` writes to `std::cerr`. -/
def MainResult.stderr : MainResult → String
  | MainResult.noLogs => "No logs to process.\n"
  | _ => ""

/-- The summary `main` displays, if any. -/
def MainResult.summary : MainResult → Option ResultSummary
  | MainResult.displayed s => some s
  | _ => none

/-- The body of `main` from the check `logs.empty()` on, for the records `parseLogs`
returned and the value of `std::thread::hardware_concurrency()` (stored in the `int`
`numThreads`).  The result is `none` when the run has undefined behaviour. -/
def mainAfterRead (logs : List LogEntry) (hardwareConcurrency : Nat) : Option MainResult :=
  if logs.isEmpty then some MainResult.noLogs
  else (runPipeline logs (hardwareConcurrency : Int)).map MainResult.displayed

/-- The function `main`: `argv` are the arguments with the program name first and
`sourceText` is the text the log source named on the command line yields (the content of
the file or the output of `log show`; empty when it cannot be opened or run). -/
def main (argv : List String) (sourceText : String → String) (hardwareConcurrency : Nat) :
    Option MainResult :=
  match argv with
  | _ :: logSource :: _ => mainAfterRead (parseLogs (sourceText logSource)) hardwareConcurrency
  | _ => some MainResult.usage

/-! ## Sample data -/

/-- The second line of the example scenario. -/
def exampleLine : String := "2024-01-01T00:00:01 ERROR disk full"

/-- Three records as the parser produces them from the example scenario. -/
def sampleLogs : List LogEntry :=
  [⟨"2024-01-01T00:00:00", "INFO", " service started"⟩,
   ⟨"2024-01-01T00:00:01", "ERROR", " disk full"⟩,
   ⟨"2024-01-01T00:00:02", "ERROR", " disk full"⟩]

/-- The summary of the first two sample records. -/
def sampleSummaryA : ResultSummary := processLogs (sampleLogs.take 2)

/-- The summary of the last sample record. -/
def sampleSummaryB : ResultSummary := processLogs (sampleLogs.drop 2)

/-- A summary of `2147483647` records of level `"ERROR"`, all with the message `"a"`. -/
def fullSummary : ResultSummary :=
  ⟨(∅ : CountMap).insert "ERROR" 2147483647, (∅ : CountMap).insert "a" 2147483647⟩

/-- A summary of one record of level `"ERROR"` with the message `"b"`. -/
def unitSummary : ResultSummary :=
  ⟨(∅ : CountMap).insert "ERROR" 1, (∅ : CountMap).insert "b" 1⟩

/-- The five input lines of the example scenario. -/
def exampleLines : List String :=
  ["2024-01-01T00:00:00 INFO service started",
   "2024-01-01T00:00:01 ERROR disk full",
   "2024-01-01T00:00:02 ERROR disk full",
   "2024-01-01T00:00:03 WARN low memory",
   "badline"]

/-- The level counts the example scenario expects: `INFO ↦ 1`, `ERROR ↦ 2`, `WARN ↦ 1`. -/
def exampleLevelCounts : CountMap :=
  (((∅ : CountMap).insert "INFO" 1).insert "ERROR" 2).insert "WARN" 1

/-- The final summary the example scenario states: error counts `"disk full" ↦ 2`. -/
def exampleSummaryStated : ResultSummary :=
  ⟨exampleLevelCounts, (∅ : CountMap).insert "disk full" 2⟩

/-- The final summary of the example scenario with the message as the parser leaves it:
error counts `" disk full" ↦ 2`. -/
def exampleSummaryParsed : ResultSummary :=
  ⟨exampleLevelCounts, (∅ : CountMap).insert " disk full" 2⟩

/-! ## Lemmas on count maps -/

theorem CountMap.lookup_addAt (m : CountMap) (k : String) (c : Int) (k' : String) :
    (m.addAt k c).lookup k' = if k' = k then some (m.valueAt k + c) else m.lookup k' := by
  unfold CountMap.addAt
  by_cases h : k' = k
  · subst h
    simp
  · simp [h, AList.lookup_insert_ne h]

theorem CountMap.lookup_incr (m : CountMap) (k k' : String) :
    (m.incr k).lookup k' = if k' = k then some (m.valueAt k + 1) else m.lookup k' :=
  CountMap.lookup_addAt m k 1 k'

theorem countEntry_getD (n : Nat) : (countEntry n).getD 0 = (n : Int) := by
  unfold countEntry
  split <;> simp_all

theorem countEntry_succ (n : Nat) : countEntry (n + 1) = some ((n : Int) + 1) := by
  simp [countEntry]

/-! ## Lemmas on `processLogs` -/

theorem processLogs_snoc (xs : List LogEntry) (e : LogEntry) :
    processLogs (xs ++ [e]) = processEntry (processLogs xs) e := by
  simp [processLogs, List.foldl_append]

theorem processEntry_frequencyByLevel (s : ResultSummary) (e : LogEntry) :
    (processEntry s e).frequencyByLevel = s.frequencyByLevel.incr e.level := by
  unfold processEntry
  split <;> rfl

theorem processEntry_errorCounts (s : ResultSummary) (e : LogEntry) :
    (processEntry s e).errorCounts =
      if e.level = "ERROR" then s.errorCounts.incr e.message else s.errorCounts := by
  unfold processEntry
  split <;> rfl

theorem processLogs_frequencyByLevel (logs : List LogEntry) (L : String) :
    (processLogs logs).frequencyByLevel.lookup L = countEntry (levelCount logs L) := by
  induction logs using List.reverseRecOn generalizing L with
  | nil => simp [processLogs, ResultSummary.empty, countEntry, levelCount]
  | append_singleton xs e ih =>
    rw [processLogs_snoc, processEntry_frequencyByLevel, CountMap.lookup_incr]
    by_cases h : L = e.level
    · subst h
      simp only [if_true]
      rw [CountMap.valueAt, ih, countEntry_getD]
      have : levelCount (xs ++ [e]) e.level = levelCount xs e.level + 1 := by
        simp [levelCount, List.countP_append]
      rw [this, countEntry_succ]
    · have : levelCount (xs ++ [e]) L = levelCount xs L := by
        have h' : ¬ e.level = L := fun h1 => h h1.symm
        simp [levelCount, List.countP_append, h']
      rw [if_neg h, this, ih]

theorem processLogs_errorCounts (logs : List LogEntry) (M : String) :
    (processLogs logs).errorCounts.lookup M = countEntry (errorCount logs M) := by
  induction logs using List.reverseRecOn generalizing M with
  | nil => simp [processLogs, ResultSummary.empty, countEntry, errorCount]
  | append_singleton xs e ih =>
    rw [processLogs_snoc, processEntry_errorCounts]
    by_cases hE : e.level = "ERROR"
    · rw [if_pos hE, CountMap.lookup_incr]
      by_cases h : M = e.message
      · subst h
        rw [if_pos rfl, CountMap.valueAt, ih, countEntry_getD]
        have : errorCount (xs ++ [e]) e.message = errorCount xs e.message + 1 := by
          simp [errorCount, List.countP_append, hE]
        rw [this, countEntry_succ]
      · have : errorCount (xs ++ [e]) M = errorCount xs M := by
          have h' : ¬ e.message = M := fun h1 => h h1.symm
          simp [errorCount, List.countP_append, h']
        rw [if_neg h, this, ih]
    · have : errorCount (xs ++ [e]) M = errorCount xs M := by
        simp [errorCount, List.countP_append, hE]
      rw [if_neg hE, this, ih]

/-! ## Lemmas on `aggregateResults` -/

theorem lookup_foldl_addAt (l : List (Sigma fun _ : String => Int)) (hl : l.NodupKeys)
    (acc : CountMap) (k : String) :
    (l.foldl (fun a e => CountMap.addAt a e.1 e.2) acc).lookup k =
      match l.dlookup k with
      | some v => some (acc.valueAt k + v)
      | none => acc.lookup k := by
  induction l generalizing acc with
  | nil => simp
  | cons e l ih =>
    obtain ⟨hnot, hl'⟩ := List.nodupKeys_cons.mp hl
    rw [List.foldl_cons, ih hl']
    by_cases h : e.1 = k
    · subst h
      have hnone : List.dlookup e.1 l = none := List.dlookup_eq_none.mpr hnot
      obtain ⟨a, b⟩ := e
      simp [hnone, CountMap.lookup_addAt, List.dlookup_cons_eq]
    · have h' : ¬ k = e.1 := fun h1 => h h1.symm
      rw [List.dlookup_cons_ne l e h']
      simp [CountMap.valueAt, CountMap.lookup_addAt, h']

theorem lookup_addAll (acc src : CountMap) (k : String) :
    (addAll acc src).lookup k =
      match src.lookup k with
      | some v => some (acc.valueAt k + v)
      | none => acc.lookup k :=
  lookup_foldl_addAt src.entries src.nodupKeys acc k

theorem mergedEntry_nil (k : String) : mergedEntry [] k = none := by
  simp [mergedEntry]

theorem mergedEntry_getD (maps : List CountMap) (k : String) :
    (mergedEntry maps k).getD 0 = (maps.filterMap (fun m => m.lookup k)).sum := by
  unfold mergedEntry
  by_cases h : maps.filterMap (fun m => m.lookup k) = []
  · simp [h]
  · simp [h]

theorem mergedEntry_snoc (maps : List CountMap) (m : CountMap) (k : String) :
    mergedEntry (maps ++ [m]) k =
      match m.lookup k with
      | some v => some ((mergedEntry maps k).getD 0 + v)
      | none => mergedEntry maps k := by
  rw [mergedEntry_getD]
  unfold mergedEntry
  cases hm : m.lookup k with
  | none => simp [List.filterMap_append, hm]
  | some v => simp [List.filterMap_append, hm]

theorem lookup_foldl_addAll (maps : List CountMap) (k : String) :
    (maps.foldl addAll ∅).lookup k = mergedEntry maps k := by
  induction maps using List.reverseRecOn generalizing k with
  | nil => simp [mergedEntry_nil]
  | append_singleton ms m ih =>
    rw [List.foldl_append, List.foldl_cons, List.foldl_nil, lookup_addAll, mergedEntry_snoc,
      CountMap.valueAt, ih]

theorem foldl_mergeInto_frequencyByLevel (ps : List ResultSummary) (acc : ResultSummary) :
    (ps.foldl mergeInto acc).frequencyByLevel =
      (ps.map (fun p => p.frequencyByLevel)).foldl addAll acc.frequencyByLevel := by
  induction ps generalizing acc with
  | nil => rfl
  | cons p ps ih => simp [List.foldl_cons, ih, mergeInto]

theorem foldl_mergeInto_errorCounts (ps : List ResultSummary) (acc : ResultSummary) :
    (ps.foldl mergeInto acc).errorCounts =
      (ps.map (fun p => p.errorCounts)).foldl addAll acc.errorCounts := by
  induction ps generalizing acc with
  | nil => rfl
  | cons p ps ih => simp [List.foldl_cons, ih, mergeInto]

theorem aggregateResults_frequencyByLevel (ps : List ResultSummary) (k : String) :
    (aggregateResults ps).frequencyByLevel.lookup k =
      mergedEntry (ps.map (fun p => p.frequencyByLevel)) k := by
  unfold aggregateResults
  rw [foldl_mergeInto_frequencyByLevel]
  exact lookup_foldl_addAll _ k

theorem aggregateResults_errorCounts (ps : List ResultSummary) (k : String) :
    (aggregateResults ps).errorCounts.lookup k =
      mergedEntry (ps.map (fun p => p.errorCounts)) k := by
  unfold aggregateResults
  rw [foldl_mergeInto_errorCounts]
  exact lookup_foldl_addAll _ k

theorem mergedEntry_perm {xs ys : List CountMap} (h : xs.Perm ys) (k : String) :
    mergedEntry xs k = mergedEntry ys k := by
  have hp : (xs.filterMap (fun m => m.lookup k)).Perm (ys.filterMap (fun m => m.lookup k)) :=
    h.filterMap _
  unfold mergedEntry
  simp only [hp.sum_eq]
  by_cases hx : xs.filterMap (fun m => m.lookup k) = []
  · have hy : ys.filterMap (fun m => m.lookup k) = [] := by
      rw [hx] at hp
      exact List.Perm.eq_nil hp.symm
    simp [hx, hy]
  · have hy : ys.filterMap (fun m => m.lookup k) ≠ [] := by
      intro hy
      rw [hy] at hp
      exact hx (List.Perm.eq_nil hp)
    simp [hx, hy]

/-! ## Lemmas on `splitLogs` -/

theorem mapM_eq_some_map {α β : Type} (f : α → Option β) (g : α → β) (l : List α)
    (h : ∀ x ∈ l, f x = some (g x)) : l.mapM f = some (l.map g) := by
  induction l with
  | nil => rfl
  | cons a l ih =>
    have ha : f a = some (g a) := h a (List.mem_cons_self a l)
    have hl : l.mapM f = some (l.map g) := ih (fun x hx => h x (List.mem_cons_of_mem a hx))
    rw [List.mapM_cons, ha, hl]
    rfl

theorem chunk_end_le (n W i : Nat) (hi : i < W) : i * (n / W) + n / W ≤ n := by
  have h1 : (i + 1) * (n / W) ≤ W * (n / W) := Nat.mul_le_mul_right _ hi
  have h2 : W * (n / W) ≤ n := Nat.mul_div_le n W
  have h3 : (i + 1) * (n / W) = i * (n / W) + n / W := by ring
  omega

theorem copyRange_chunk (logs : List LogEntry) (W i : Nat) (hi : i < W) :
    copyRange logs (chunkStart (logs.length / W) i)
        (chunkEnd logs.length W (logs.length / W) i) =
      some (if i = W - 1 then logs.drop (i * (logs.length / W))
        else (logs.drop (i * (logs.length / W))).take (logs.length / W)) := by
  have hle := chunk_end_le logs.length W i hi
  unfold copyRange chunkEnd chunkStart
  generalize logs.length / W = cs at hle ⊢
  by_cases hlast : i = W - 1
  · simp only [if_pos hlast]
    have h1 : i * cs ≤ logs.length := by omega
    rw [if_pos ⟨h1, le_refl _⟩]
    congr 1
    apply List.take_of_length_le
    simp
  · simp only [if_neg hlast]
    rw [if_pos ⟨by omega, hle⟩]
    congr 2
    omega

theorem splitLogs_eq (logs : List LogEntry) (W : Nat) (hW : 1 ≤ W) :
    splitLogs logs (W : Int) =
      some ((List.range (W - 1)).map
          (fun i => (logs.drop (i * (logs.length / W))).take (logs.length / W))
        ++ [logs.drop ((W - 1) * (logs.length / W))]) := by
  have hne : ¬ ((W : Int) = 0) := by omega
  unfold splitLogs
  rw [if_neg hne]
  simp only [Int.toNat_ofNat]
  rw [mapM_eq_some_map _ (fun i => if i = W - 1 then logs.drop (i * (logs.length / W))
        else (logs.drop (i * (logs.length / W))).take (logs.length / W))]
  · congr 1
    obtain ⟨w, rfl⟩ : ∃ w, W = w + 1 := ⟨W - 1, by omega⟩
    rw [List.range_succ, List.map_append]
    simp only [Nat.add_sub_cancel, List.map_cons, List.map_nil, if_true]
    congr 1
    apply List.map_congr_left
    intro i hi
    have : i ≠ w := by
      have := List.mem_range.mp hi
      omega
    simp [this]
  · intro i hi
    exact copyRange_chunk logs W i (List.mem_range.mp hi)

theorem join_uniform_chunks (l : List LogEntry) (cs m : Nat) :
    ((List.range m).map (fun i => (l.drop (i * cs)).take cs)).flatten = l.take (m * cs) := by
  induction m with
  | zero => simp
  | succ m ih =>
    rw [List.range_succ, List.map_append, List.flatten_append, ih]
    simp only [List.map_cons, List.map_nil, List.flatten_cons, List.flatten_nil, List.append_nil]
    rw [Nat.succ_mul, List.take_add]

theorem length_uniform_chunk (l : List LogEntry) (W i : Nat) (hi : i + 1 < W) :
    ((l.drop (i * (l.length / W))).take (l.length / W)).length = l.length / W := by
  have := chunk_end_le l.length W i (by omega)
  rw [List.length_take, List.length_drop]
  generalize l.length / W = cs at this ⊢
  omega

/-! ## Counting through the merge -/

theorem CountMap.of_lookup_countEntry (m : CountMap) (k : String) (n : Nat)
    (h : m.lookup k = countEntry n) : (k ∈ m ↔ 1 ≤ n) ∧ m.valueAt k = (n : Int) := by
  constructor
  · rw [← AList.lookup_isSome, h]
    unfold countEntry
    by_cases hn : n = 0
    · simp [hn]
    · simp [hn]
      omega
  · rw [CountMap.valueAt, h, countEntry_getD]

theorem mergedEntry_cons (m : CountMap) (maps : List CountMap) (k : String) :
    mergedEntry (m :: maps) k =
      match m.lookup k with
      | some v => some (v + (mergedEntry maps k).getD 0)
      | none => mergedEntry maps k := by
  rw [mergedEntry_getD]
  unfold mergedEntry
  cases hm : m.lookup k with
  | none => simp [List.filterMap_cons, hm]
  | some v => simp [List.filterMap_cons, hm]

theorem mergedEntry_map_count {α : Type} (f : α → CountMap) (cnt : α → Nat) (k : String)
    (h : ∀ a, (f a).lookup k = countEntry (cnt a)) (l : List α) :
    mergedEntry (l.map f) k = countEntry ((l.map cnt).sum) := by
  induction l with
  | nil => simp [mergedEntry_nil, countEntry]
  | cons a l ih =>
    rw [List.map_cons, mergedEntry_cons, h a, ih, countEntry_getD, List.map_cons, List.sum_cons]
    by_cases ha : cnt a = 0
    · simp [countEntry, ha]
    · have hs : ¬ (cnt a + (l.map cnt).sum = 0) := by omega
      simp [countEntry, ha, hs]

theorem aggregate_process_frequencyByLevel (chunks : List (List LogEntry)) (L : String) :
    (aggregateResults (chunks.map processLogs)).frequencyByLevel.lookup L =
      countEntry (levelCount chunks.flatten L) := by
  have hmap : (chunks.map processLogs).map (fun p => p.frequencyByLevel) =
      chunks.map (fun c => (processLogs c).frequencyByLevel) := by simp
  rw [aggregateResults_frequencyByLevel, hmap,
    mergedEntry_map_count (fun c => (processLogs c).frequencyByLevel)
      (fun c => levelCount c L) L (fun c => processLogs_frequencyByLevel c L)]
  simp [levelCount, List.countP_flatten]

theorem aggregate_process_errorCounts (chunks : List (List LogEntry)) (M : String) :
    (aggregateResults (chunks.map processLogs)).errorCounts.lookup M =
      countEntry (errorCount chunks.flatten M) := by
  have hmap : (chunks.map processLogs).map (fun p => p.errorCounts) =
      chunks.map (fun c => (processLogs c).errorCounts) := by simp
  rw [aggregateResults_errorCounts, hmap,
    mergedEntry_map_count (fun c => (processLogs c).errorCounts)
      (fun c => errorCount c M) M (fun c => processLogs_errorCounts c M)]
  simp [errorCount, List.countP_flatten]

theorem splitLogs_flatten_eq (logs : List LogEntry) (W : Nat) :
    ((List.range (W - 1)).map
          (fun i => (logs.drop (i * (logs.length / W))).take (logs.length / W))
        ++ [logs.drop ((W - 1) * (logs.length / W))]).flatten = logs := by
  rw [List.flatten_append, join_uniform_chunks]
  simp

theorem mem_mergedEntry (maps : List CountMap) (k : String) :
    (mergedEntry maps k).isSome ↔ ∃ m ∈ maps, k ∈ m := by
  unfold mergedEntry
  by_cases h : maps.filterMap (fun m => m.lookup k) = []
  · simp only [h, if_true, Option.isSome_none, Bool.false_eq_true, false_iff]
    rintro ⟨m, hm, hk⟩
    obtain ⟨v, hv⟩ := Option.isSome_iff_exists.mp (AList.lookup_isSome.mpr hk)
    have : v ∈ maps.filterMap (fun m => m.lookup k) := List.mem_filterMap.mpr ⟨m, hm, hv⟩
    rw [h] at this
    exact List.not_mem_nil _ this
  · simp only [h, if_false, Option.isSome_some, true_iff]
    obtain ⟨v, hv⟩ := List.exists_mem_of_ne_nil _ h
    obtain ⟨m, hm, hmv⟩ := List.mem_filterMap.mp hv
    exact ⟨m, hm, AList.lookup_isSome.mp (by rw [hmv]; rfl)⟩

theorem mergedEntry_pair (X Y : List CountMap) (A B : CountMap) (k : String)
    (hA : A.lookup k = mergedEntry X k) (hB : B.lookup k = mergedEntry Y k) :
    mergedEntry (X ++ Y) k = mergedEntry [A, B] k := by
  unfold mergedEntry at hA hB ⊢
  simp only [List.filterMap_append, List.filterMap_cons, List.filterMap_nil, hA, hB]
  by_cases hx : X.filterMap (fun m => m.lookup k) = []
  · by_cases hy : Y.filterMap (fun m => m.lookup k) = []
    · simp [hx, hy]
    · simp [hx, hy]
  · by_cases hy : Y.filterMap (fun m => m.lookup k) = []
    · simp [hx, hy]
    · simp [hx, hy]

/-! ## Lemmas on the parser -/

theorem splitOnP_head (s : List Char) :
    ∃ rest, s.splitOnP isspace = s.takeWhile (fun c => !isspace c) :: rest ∧
      rest.filter (fun t => !t.isEmpty) = pieces (s.dropWhile (fun c => !isspace c)) := by
  induction s with
  | nil => exact ⟨[], by simp [List.splitOnP_nil], by simp [pieces, List.splitOnP_nil]⟩
  | cons c s ih =>
    obtain ⟨rest, h1, h2⟩ := ih
    rw [List.splitOnP_cons]
    by_cases hc : isspace c = true
    · refine ⟨s.splitOnP isspace, by simp [hc], ?_⟩
      simp [pieces, hc, List.splitOnP_cons]
    · refine ⟨rest, by simp [hc, h1], ?_⟩
      simp [hc, h2]

theorem pieces_extractToken (s : List Char) :
    pieces s = match extractToken s with
      | none => []
      | some (t, r) => t :: pieces r := by
  induction s with
  | nil => simp [pieces, extractToken, List.splitOnP_nil]
  | cons c s ih =>
    by_cases hc : isspace c = true
    · have h1 : pieces (c :: s) = pieces s := by
        simp [pieces, hc, List.splitOnP_cons]
      have h2 : extractToken (c :: s) = extractToken s := by
        simp [extractToken, hc]
      rw [h1, h2, ih]
    · obtain ⟨rest, h1, h2⟩ := splitOnP_head (c :: s)
      have h3 : extractToken (c :: s) =
          some ((c :: s).takeWhile (fun c => !isspace c),
            (c :: s).dropWhile (fun c => !isspace c)) := by
        simp [extractToken, hc]
      rw [h3]
      simp only [pieces, h1]
      rw [List.filter_cons_of_pos (by simp [hc]), h2]
      rfl

theorem extractToken_spec (s t r : List Char) (h : extractToken s = some (t, r)) :
    ∃ ws, s = ws ++ t ++ r ∧ (∀ c ∈ ws, isspace c = true) ∧ (∀ c ∈ t, isspace c = false) ∧
      t ≠ [] ∧ (∀ c, r.head? = some c → isspace c = true) := by
  unfold extractToken at h
  simp only at h
  split at h
  · exact absurd h (by simp)
  · rename_i hne
    simp only [Option.some.injEq, Prod.mk.injEq] at h
    obtain ⟨ht, hr⟩ := h
    refine ⟨s.takeWhile isspace, ?_, ?_, ?_, ?_, ?_⟩
    · rw [← ht, ← hr, List.append_assoc, List.takeWhile_append_dropWhile,
        List.takeWhile_append_dropWhile]
    · intro c hc
      exact List.mem_takeWhile_imp hc
    · intro c hc
      rw [← ht] at hc
      simpa using List.mem_takeWhile_imp hc
    · rw [← ht]
      intro h0
      exact hne (by simp [h0])
    · intro c hc
      rw [← hr] at hc
      have := List.head?_dropWhile_not (fun c => !isspace c) (s.dropWhile isspace)
      rw [hc] at this
      simpa using this

theorem tokens_parseLine_cases (line : String) :
    (tokens line = [] ∧ parseLine line = none) ∨
    (∃ t, tokens line = [t] ∧ parseLine line = none) ∨
    (∃ ts lv rest msg, tokens line = ts :: lv :: rest ∧ parseLine line = some ⟨ts, lv, msg⟩) := by
  have ht : tokens line = (pieces line.data).map String.mk := rfl
  rw [ht, pieces_extractToken]
  unfold parseLine
  cases h1 : extractToken line.data with
  | none => exact Or.inl ⟨rfl, rfl⟩
  | some p1 =>
    obtain ⟨t, r⟩ := p1
    simp only
    rw [pieces_extractToken]
    cases h2 : extractToken r with
    | none => exact Or.inr (Or.inl ⟨String.mk t, rfl, rfl⟩)
    | some p2 =>
      obtain ⟨l, r2⟩ := p2
      exact Or.inr (Or.inr ⟨String.mk t, String.mk l, _, _, rfl, rfl⟩)

theorem getlineRest_eq_self (s : List Char) (h : Char.ofNat 10 ∉ s) : getlineRest s = s := by
  unfold getlineRest
  rw [List.takeWhile_eq_self_iff]
  intro c hc
  have : c ≠ Char.ofNat 10 := fun h0 => h (h0 ▸ hc)
  simpa using this

theorem getlines_no_newline (text : List Char) :
    ∀ l ∈ getlines text, Char.ofNat 10 ∉ l := by
  induction text with
  | nil => simp [getlines]
  | cons c rest ih =>
    intro l hl
    unfold getlines at hl
    by_cases hc : c = Char.ofNat 10
    · rw [if_pos hc] at hl
      rcases List.mem_cons.mp hl with h | h
      · simp [h]
      · exact ih l h
    · rw [if_neg hc] at hl
      cases hg : getlines rest with
      | nil =>
        rw [hg] at hl
        simp only [List.mem_singleton] at hl
        subst hl
        simpa using fun h => hc h.symm
      | cons l0 ls =>
        rw [hg] at hl ih
        rcases List.mem_cons.mp hl with h | h
        · subst h
          intro hmem
          rcases List.mem_cons.mp hmem with h' | h'
          · exact hc h'.symm
          · exact ih l0 (List.mem_cons_self _ _) h'
        · exact ih l (List.mem_cons_of_mem _ h)

/-! ## The claims -/

/-- C1: for every record sequence and every worker count `W ≥ 1`, `splitLogs` returns
chunks, and the merge by `aggregateResults` of the per-chunk `processLogs` results holds at
every level `L` the number of records of level `L` and at every message `M` the number of
`"ERROR"` records with message `M`; a key is absent exactly when that number is `0`. -/
theorem pipeline_counts_exact (logs : List LogEntry) (W : Nat) (hW : 1 ≤ W) :
    ∃ chunks, splitLogs logs (W : Int) = some chunks ∧
      CountsExact logs (aggregateResults (chunks.map processLogs)) := by
  refine ⟨_, splitLogs_eq logs W hW, ?_, ?_⟩
  · intro L
    have h := aggregate_process_frequencyByLevel
      ((List.range (W - 1)).map
          (fun i => (logs.drop (i * (logs.length / W))).take (logs.length / W))
        ++ [logs.drop ((W - 1) * (logs.length / W))]) L
    rw [splitLogs_flatten_eq] at h
    obtain ⟨h1, h2⟩ := CountMap.of_lookup_countEntry _ _ _ h
    exact ⟨by rw [h1]; omega, h2⟩
  · intro M
    have h := aggregate_process_errorCounts
      ((List.range (W - 1)).map
          (fun i => (logs.drop (i * (logs.length / W))).take (logs.length / W))
        ++ [logs.drop ((W - 1) * (logs.length / W))]) M
    rw [splitLogs_flatten_eq] at h
    obtain ⟨h1, h2⟩ := CountMap.of_lookup_countEntry _ _ _ h
    exact ⟨by rw [h1]; omega, h2⟩

/-- Witness of C1 on the sample records with two workers; the merged level map holds
`ERROR ↦ 2`. -/
theorem pipeline_counts_exact_witness :
    (1 ≤ 2 ∧ ∃ chunks, splitLogs sampleLogs ((2 : Nat) : Int) = some chunks ∧
      CountsExact sampleLogs (aggregateResults (chunks.map processLogs))) ∧
    (runPipeline sampleLogs 2).map (fun s => s.frequencyByLevel.lookup "ERROR")
      = some (some 2) :=
  ⟨⟨by decide, pipeline_counts_exact sampleLogs 2 (by decide)⟩, by decide⟩

/-- C2: for every record sequence and every worker count `W ≥ 1`, the chunks returned by
`splitLogs`, concatenated in order, are the original sequence. -/
theorem splitLogs_concat (logs : List LogEntry) (W : Nat) (hW : 1 ≤ W) :
    ∃ chunks, splitLogs logs (W : Int) = some chunks ∧ chunks.flatten = logs :=
  ⟨_, splitLogs_eq logs W hW, splitLogs_flatten_eq logs W⟩

/-- Witness of C2: the three sample records split for two workers. -/
theorem splitLogs_concat_witness :
    (1 ≤ 2 ∧ ∃ chunks, splitLogs sampleLogs ((2 : Nat) : Int) = some chunks ∧
      chunks.flatten = sampleLogs) ∧
    splitLogs sampleLogs 2 = some [sampleLogs.take 1, sampleLogs.drop 1] :=
  ⟨⟨by decide, splitLogs_concat sampleLogs 2 (by decide)⟩, by decide⟩

/-- C3: `aggregateResults` returns the same summary (same key sets, same counts in both
maps) for a list of partial summaries and for every permutation of it. -/
theorem aggregateResults_perm (ps qs : List ResultSummary) (h : ps.Perm qs) :
    ResultSummary.Same (aggregateResults ps) (aggregateResults qs) := by
  constructor
  · intro k
    rw [aggregateResults_frequencyByLevel, aggregateResults_frequencyByLevel]
    exact mergedEntry_perm (h.map _) k
  · intro k
    rw [aggregateResults_errorCounts, aggregateResults_errorCounts]
    exact mergedEntry_perm (h.map _) k

/-- Witness of C3: two sample summaries merged in both orders. -/
theorem aggregateResults_perm_witness :
    [sampleSummaryA, sampleSummaryB].Perm [sampleSummaryB, sampleSummaryA] ∧
      ResultSummary.Same (aggregateResults [sampleSummaryA, sampleSummaryB])
        (aggregateResults [sampleSummaryB, sampleSummaryA]) :=
  ⟨List.Perm.swap _ _ _, aggregateResults_perm _ _ (List.Perm.swap _ _ _)⟩

/-- C4: for every partition, `processLogs` returns a summary whose `frequencyByLevel[L]`
is the number of records of level `L` and whose `errorCounts[M]` is the number of records of
level exactly `"ERROR"` with message `M`; a key is present exactly when its count is at least
`1`, and the empty partition gives the empty summary. -/
theorem processLogs_counts (logs : List LogEntry) :
    CountsExact logs (processLogs logs) ∧ processLogs [] = ResultSummary.empty := by
  refine ⟨⟨fun L => ?_, fun M => ?_⟩, rfl⟩
  · obtain ⟨h1, h2⟩ :=
      CountMap.of_lookup_countEntry _ _ _ (processLogs_frequencyByLevel logs L)
    exact ⟨by rw [h1]; omega, h2⟩
  · obtain ⟨h1, h2⟩ :=
      CountMap.of_lookup_countEntry _ _ _ (processLogs_errorCounts logs M)
    exact ⟨by rw [h1]; omega, h2⟩

/-- C5: for every sequence of `N` records and every worker count `W ≥ 1`, `splitLogs`
returns exactly `W` chunks, each of the first `W - 1` chunks has size `N / W`, and the last
chunk has size `N - (N / W) * (W - 1)`. -/
theorem splitLogs_sizes (logs : List LogEntry) (W : Nat) (hW : 1 ≤ W) :
    ∃ chunks, splitLogs logs (W : Int) = some chunks ∧ chunks.length = W ∧
      (∀ i : Nat, i + 1 < W →
        (chunks[i]?).map List.length = some (logs.length / W)) ∧
      (chunks[W - 1]?).map List.length =
        some (logs.length - logs.length / W * (W - 1)) ∧
      logs.length / W * (W - 1) ≤ logs.length := by
  have hlen : ((List.range (W - 1)).map
      (fun i => (logs.drop (i * (logs.length / W))).take (logs.length / W))).length = W - 1 := by
    simp
  refine ⟨_, splitLogs_eq logs W hW, ?_, ?_, ?_, ?_⟩
  · rw [List.length_append, hlen]
    simp
    omega
  · intro i hi
    have hi' : i < W - 1 := by omega
    rw [List.getElem?_append_left (by rw [hlen]; exact hi')]
    rw [List.getElem?_map, List.getElem?_range hi']
    simp only [Option.map_some']
    rw [length_uniform_chunk logs W i hi]
  · rw [List.getElem?_append_right (by rw [hlen]), hlen]
    simp only [Nat.sub_self, List.getElem?_cons_zero, Option.map_some', List.length_drop]
    rw [Nat.mul_comm]
  · have := chunk_end_le logs.length W (W - 1) (by omega)
    rw [Nat.mul_comm]
    exact le_trans (Nat.le_add_right _ _) this

/-- Witness of C5: three records for two workers give chunks of sizes `1` and `2`. -/
theorem splitLogs_sizes_witness :
    1 ≤ 2 ∧ ∃ chunks, splitLogs sampleLogs ((2 : Nat) : Int) = some chunks ∧
      chunks.length = 2 ∧
      (∀ i : Nat, i + 1 < 2 →
        (chunks[i]?).map List.length = some (sampleLogs.length / 2)) ∧
      (chunks[2 - 1]?).map List.length =
        some (sampleLogs.length - sampleLogs.length / 2 * (2 - 1)) ∧
      sampleLogs.length / 2 * (2 - 1) ≤ sampleLogs.length :=
  ⟨by decide, splitLogs_sizes sampleLogs 2 (by decide)⟩

/-- With exact sums: the key set of the merge is the union of the key sets of the partial
summaries and each key holds the sum of its counts over the partial summaries that contain
it. -/
theorem aggregateResults_exact_union_sum (ps : List ResultSummary) :
    (∀ k : String,
      (k ∈ (aggregateResults ps).frequencyByLevel ↔ ∃ p ∈ ps, k ∈ p.frequencyByLevel) ∧
        (aggregateResults ps).frequencyByLevel.valueAt k =
          (ps.filterMap (fun p => p.frequencyByLevel.lookup k)).sum) ∧
    (∀ k : String,
      (k ∈ (aggregateResults ps).errorCounts ↔ ∃ p ∈ ps, k ∈ p.errorCounts) ∧
        (aggregateResults ps).errorCounts.valueAt k =
          (ps.filterMap (fun p => p.errorCounts.lookup k)).sum) ∧
    aggregateResults [] = ResultSummary.empty := by
  refine ⟨fun k => ⟨?_, ?_⟩, fun k => ⟨?_, ?_⟩, rfl⟩
  · rw [← AList.lookup_isSome, aggregateResults_frequencyByLevel, mem_mergedEntry]
    simp
  · rw [CountMap.valueAt, aggregateResults_frequencyByLevel, mergedEntry_getD,
      List.filterMap_map]
    rfl
  · rw [← AList.lookup_isSome, aggregateResults_errorCounts, mem_mergedEntry]
    simp
  · rw [CountMap.valueAt, aggregateResults_errorCounts, mergedEntry_getD,
      List.filterMap_map]
    rfl

/-- C7: merging does not depend on the grouping: `aggregateResults (xs ++ ys)` has the
same key sets and counts as `aggregateResults [aggregateResults xs, aggregateResults ys]`. -/
theorem aggregateResults_grouping (xs ys : List ResultSummary) :
    ResultSummary.Same (aggregateResults (xs ++ ys))
      (aggregateResults [aggregateResults xs, aggregateResults ys]) := by
  constructor
  · intro k
    rw [aggregateResults_frequencyByLevel, aggregateResults_frequencyByLevel, List.map_append]
    exact mergedEntry_pair _ _ _ _ k (aggregateResults_frequencyByLevel xs k)
      (aggregateResults_frequencyByLevel ys k)
  · intro k
    rw [aggregateResults_errorCounts, aggregateResults_errorCounts, List.map_append]
    exact mergedEntry_pair _ _ _ _ k (aggregateResults_errorCounts xs k)
      (aggregateResults_errorCounts ys k)

/-- C8: merging a summary `S` with the empty summary, on either side, gives the key sets
of `S` (keys of count `0` included) with the counts of `S`. -/
theorem aggregateResults_empty_unit (S : ResultSummary) :
    ResultSummary.Same (aggregateResults [S, ResultSummary.empty]) S ∧
      ResultSummary.Same (aggregateResults [ResultSummary.empty, S]) S := by
  refine ⟨⟨fun k => ?_, fun k => ?_⟩, ⟨fun k => ?_, fun k => ?_⟩⟩
  · rw [aggregateResults_frequencyByLevel]
    cases h : S.frequencyByLevel.lookup k <;> simp [mergedEntry, ResultSummary.empty, h]
  · rw [aggregateResults_errorCounts]
    cases h : S.errorCounts.lookup k <;> simp [mergedEntry, ResultSummary.empty, h]
  · rw [aggregateResults_frequencyByLevel]
    cases h : S.frequencyByLevel.lookup k <;> simp [mergedEntry, ResultSummary.empty, h]
  · rw [aggregateResults_errorCounts]
    cases h : S.errorCounts.lookup k <;> simp [mergedEntry, ResultSummary.empty, h]

/-- C9: the parser loop emits no record for a line with zero or one whitespace-delimited
tokens and exactly one record for a line with two or more, whose timestamp is the first
token and whose level is the second token, whatever strings they are; a line with fewer
than two tokens leaves the record sequence, and so every count of the final summary,
unchanged. -/
theorem parseLines_tokens (line : String) :
    (parseLines [line] = [] ↔ (tokens line).length < 2) ∧
    (match tokens line with
      | ts :: lv :: _ => ∃ msg, parseLines [line] = [⟨ts, lv, msg⟩]
      | _ => ∀ (pre post : List String) (W : Int),
          parseLines (pre ++ line :: post) = parseLines (pre ++ post) ∧
            runPipeline (parseLines (pre ++ line :: post)) W =
              runPipeline (parseLines (pre ++ post)) W) := by
  rcases tokens_parseLine_cases line with ⟨ht, hp⟩ | ⟨t, ht, hp⟩ | ⟨ts, lv, rest, msg, ht, hp⟩
  · rw [ht]
    refine ⟨by simp [parseLines, hp], ?_⟩
    intro pre post W
    have : parseLines (pre ++ line :: post) = parseLines (pre ++ post) := by
      simp [parseLines, List.filterMap_append, List.filterMap_cons, hp]
    exact ⟨this, by rw [this]⟩
  · rw [ht]
    refine ⟨by simp [parseLines, hp], ?_⟩
    intro pre post W
    have : parseLines (pre ++ line :: post) = parseLines (pre ++ post) := by
      simp [parseLines, List.filterMap_append, List.filterMap_cons, hp]
    exact ⟨this, by rw [this]⟩
  · rw [ht]
    refine ⟨by simp [parseLines, hp], ?_⟩
    exact ⟨msg, by simp [parseLines, hp]⟩

/-- C10 (as the code behaves): for every line without a newline (as `std::getline` reads
it) with at least two whitespace-delimited tokens, the parser produces a record and the line
is leading whitespace, the timestamp token, separating whitespace, the level token and then
the message: the message is the whole unread remainder after the level token, nothing is
stripped, so it is empty or begins with the whitespace character that ended the level. -/
theorem parseLine_message_remainder (line : String) (hnl : Char.ofNat 10 ∉ line.data)
    (h2 : 2 ≤ (tokens line).length) :
    ∃ e ws1 ws2, parseLine line = some e ∧
      (tokens line)[0]? = some e.timestamp ∧ (tokens line)[1]? = some e.level ∧
      line.data = ws1 ++ e.timestamp.data ++ ws2 ++ e.level.data ++ e.message.data ∧
      (∀ c ∈ ws1, isspace c = true) ∧ (∀ c ∈ ws2, isspace c = true) ∧ ws2 ≠ [] ∧
      (∀ c, e.message.data.head? = some c → isspace c = true) := by
  have ht : tokens line = (pieces line.data).map String.mk := rfl
  rw [ht, pieces_extractToken] at h2 ⊢
  unfold parseLine
  cases h1 : extractToken line.data with
  | none => simp [h1] at h2
  | some p1 =>
    obtain ⟨t, r⟩ := p1
    rw [h1] at h2
    simp only at h2 ⊢
    rw [pieces_extractToken] at h2 ⊢
    cases h3 : extractToken r with
    | none => simp [h3] at h2
    | some p2 =>
      obtain ⟨l, r2⟩ := p2
      obtain ⟨ws1, e1, hws1, -, -, hr⟩ := extractToken_spec _ _ _ h1
      obtain ⟨ws2, e2, hws2, hl, hlne, hr2⟩ := extractToken_spec _ _ _ h3
      have hr2nl : Char.ofNat 10 ∉ r2 := by
        intro hmem
        apply hnl
        rw [e1, e2]
        simp [hmem]
      have hws2ne : ws2 ≠ [] := by
        intro h0
        subst h0
        cases l with
        | nil => exact hlne rfl
        | cons c l' =>
          have hc1 := hr c (by rw [e2]; rfl)
          have hc2 := hl c (List.mem_cons_self _ _)
          rw [hc1] at hc2
          exact absurd hc2 (by simp)
      refine ⟨_, ws1, ws2, rfl, by simp, by simp, ?_, hws1, hws2, hws2ne, ?_⟩
      · simp only [getlineRest_eq_self r2 hr2nl]
        rw [e1, e2]
        simp
      · simp only [getlineRest_eq_self r2 hr2nl]
        exact hr2

/-- Witness of C10 on the example line. -/
theorem parseLine_message_remainder_witness :
    Char.ofNat 10 ∉ exampleLine.data ∧ 2 ≤ (tokens exampleLine).length ∧
    ∃ e ws1 ws2, parseLine exampleLine = some e ∧
      (tokens exampleLine)[0]? = some e.timestamp ∧ (tokens exampleLine)[1]? = some e.level ∧
      exampleLine.data = ws1 ++ e.timestamp.data ++ ws2 ++ e.level.data ++ e.message.data ∧
      (∀ c ∈ ws1, isspace c = true) ∧ (∀ c ∈ ws2, isspace c = true) ∧ ws2 ≠ [] ∧
      (∀ c, e.message.data.head? = some c → isspace c = true) :=
  ⟨by decide, by decide, parseLine_message_remainder exampleLine (by decide) (by decide)⟩

/-- C10 fails as stated: on the line of the example the code keeps the separating space
in the message, where the stated grammar strips it. -/
theorem parseLine_message_keeps_separator :
    (parseLine "2024-01-01T00:00:01 ERROR disk full").map (fun e => e.message)
        = some " disk full" ∧
      specMessage "2024-01-01T00:00:01 ERROR disk full" = some "disk full" ∧
      (parseLine "2024-01-01T00:00:01 ERROR disk full").map (fun e => e.message)
        ≠ specMessage "2024-01-01T00:00:01 ERROR disk full" := by
  decide


/-! ## Lemmas on the whole pipeline -/

theorem runPipeline_lookup (logs : List LogEntry) (W : Nat) (hW : 1 ≤ W) :
    ∃ s, runPipeline logs (W : Int) = some s ∧
      (∀ L : String, s.frequencyByLevel.lookup L = countEntry (levelCount logs L)) ∧
      (∀ M : String, s.errorCounts.lookup M = countEntry (errorCount logs M)) := by
  unfold runPipeline
  rw [splitLogs_eq logs W hW]
  refine ⟨_, rfl, fun L => ?_, fun M => ?_⟩
  · have h := aggregate_process_frequencyByLevel
      ((List.range (W - 1)).map
          (fun i => (logs.drop (i * (logs.length / W))).take (logs.length / W))
        ++ [logs.drop ((W - 1) * (logs.length / W))]) L
    rw [splitLogs_flatten_eq] at h
    exact h
  · have h := aggregate_process_errorCounts
      ((List.range (W - 1)).map
          (fun i => (logs.drop (i * (logs.length / W))).take (logs.length / W))
        ++ [logs.drop ((W - 1) * (logs.length / W))]) M
    rw [splitLogs_flatten_eq] at h
    exact h

theorem parseLines_exampleLines :
    parseLines exampleLines =
      [⟨"2024-01-01T00:00:00", "INFO", " service started"⟩,
       ⟨"2024-01-01T00:00:01", "ERROR", " disk full"⟩,
       ⟨"2024-01-01T00:00:02", "ERROR", " disk full"⟩,
       ⟨"2024-01-01T00:00:03", "WARN", " low memory"⟩] := by
  decide

theorem exampleLevelCounts_lookup (L : String) :
    exampleLevelCounts.lookup L = countEntry (levelCount (parseLines exampleLines) L) := by
  rw [parseLines_exampleLines]
  by_cases h1 : L = "INFO"
  · subst h1
    decide
  by_cases h2 : L = "ERROR"
  · subst h2
    decide
  by_cases h3 : L = "WARN"
  · subst h3
    decide
  have e1 : ¬ "INFO" = L := fun h => h1 h.symm
  have e2 : ¬ "ERROR" = L := fun h => h2 h.symm
  have e3 : ¬ "WARN" = L := fun h => h3 h.symm
  simp only [exampleLevelCounts, levelCount, countEntry, AList.lookup_insert_ne h1,
    AList.lookup_insert_ne h2, AList.lookup_insert_ne h3]
  simp [e1, e2, e3]

theorem exampleErrorCounts_lookup (M : String) :
    exampleSummaryParsed.errorCounts.lookup M =
      countEntry (errorCount (parseLines exampleLines) M) := by
  rw [parseLines_exampleLines]
  by_cases h1 : M = " disk full"
  · subst h1
    decide
  have e1 : ¬ " disk full" = M := fun h => h1 h.symm
  simp only [exampleSummaryParsed, errorCount, countEntry, AList.lookup_insert_ne h1]
  simp [e1]

/-- C11 (as the code behaves): for every worker count `W ≥ 1`, parsing the five lines of
the example scenario and running split, per-chunk `processLogs` and merge yields the level
counts `INFO ↦ 1`, `ERROR ↦ 2`, `WARN ↦ 1` and the error counts `" disk full" ↦ 2`, the key
being the message with its leading space. -/
theorem example_scenario_summary (W : Nat) (hW : 1 ≤ W) :
    ∃ s, runPipeline (parseLines exampleLines) (W : Int) = some s ∧
      ResultSummary.Same s exampleSummaryParsed := by
  obtain ⟨s, hs, hf, he⟩ := runPipeline_lookup (parseLines exampleLines) W hW
  refine ⟨s, hs, fun L => ?_, fun M => ?_⟩
  · rw [hf L]
    exact (exampleLevelCounts_lookup L).symm
  · rw [he M]
    exact (exampleErrorCounts_lookup M).symm

/-- Witness of C11 with three workers. -/
theorem example_scenario_summary_witness :
    1 ≤ 3 ∧ ∃ s, runPipeline (parseLines exampleLines) ((3 : Nat) : Int) = some s ∧
      ResultSummary.Same s exampleSummaryParsed :=
  ⟨by decide, example_scenario_summary 3 (by decide)⟩

/-- C11 fails as stated: with one worker the final error counts of the example scenario
have no key `"disk full"`, where the stated summary holds `2` there; the count `2` sits at
the key `" disk full"`. -/
theorem example_scenario_key_differs :
    (runPipeline (parseLines exampleLines) 1).map (fun s => s.errorCounts.lookup "disk full")
        = some none ∧
      exampleSummaryStated.errorCounts.lookup "disk full" = some 2 ∧
      (runPipeline (parseLines exampleLines) 1).map (fun s => s.errorCounts.lookup " disk full")
        = some (some 2) := by
  decide


theorem length_last_chunk (l : List LogEntry) (W : Nat) (hW : 1 ≤ W) :
    l.length / W ≤ (l.drop ((W - 1) * (l.length / W))).length := by
  have h := chunk_end_le l.length W (W - 1) (by omega)
  rw [List.length_drop]
  generalize l.length / W = cs at h ⊢
  omega

/-- C12 (as the code behaves): `splitLogs` does not clamp the worker count.  For `N`
records (`N ≥ 1` included) and `W ≥ 1` it returns `W` partitions; when `W ≤ N` none of them is empty, and when
`N < W` the first `W - 1` partitions are empty and the last holds all `N` records. -/
theorem splitLogs_empty_chunks (logs : List LogEntry) (W : Nat) (hW : 1 ≤ W) :
    ∃ chunks, splitLogs logs (W : Int) = some chunks ∧ chunks.length = W ∧
      (W ≤ logs.length → ∀ c ∈ chunks, c ≠ []) ∧
      (logs.length < W → chunks = List.replicate (W - 1) [] ++ [logs]) := by
  refine ⟨_, splitLogs_eq logs W hW, ?_, ?_, ?_⟩
  · simp
    omega
  · intro hle c hc
    have hcs : 1 ≤ logs.length / W := (Nat.one_le_div_iff (by omega)).mpr hle
    have hlen : 1 ≤ c.length := by
      rcases List.mem_append.mp hc with h | h
      · obtain ⟨i, hi, rfl⟩ := List.mem_map.mp h
        have hi' : i + 1 < W := by
          have := List.mem_range.mp hi
          omega
        rw [length_uniform_chunk logs W i hi']
        exact hcs
      · rw [List.mem_singleton] at h
        subst h
        exact le_trans hcs (length_last_chunk logs W hW)
    intro h0
    rw [h0] at hlen
    simp at hlen
  · intro hlt
    have hcs : logs.length / W = 0 := Nat.div_eq_of_lt hlt
    rw [hcs]
    simp [List.eq_replicate_iff]

/-- Witness of C12: three records, for two workers and for five workers. -/
theorem splitLogs_empty_chunks_witness :
    (1 ≤ sampleLogs.length ∧ 1 ≤ 5 ∧
      ∃ chunks, splitLogs sampleLogs ((5 : Nat) : Int) = some chunks ∧ chunks.length = 5 ∧
        (5 ≤ sampleLogs.length → ∀ c ∈ chunks, c ≠ []) ∧
        (sampleLogs.length < 5 → chunks = List.replicate (5 - 1) [] ++ [sampleLogs])) ∧
    splitLogs sampleLogs 5 = some [[], [], [], [], sampleLogs] ∧
    splitLogs sampleLogs 2 = some [sampleLogs.take 1, sampleLogs.drop 1] :=
  ⟨⟨by decide, by decide, splitLogs_empty_chunks sampleLogs 5 (by decide)⟩,
    by decide, by decide⟩

/-- C12 fails as stated: one record split for two workers gives an empty first
partition. -/
theorem splitLogs_one_record_two_workers :
    1 ≤ (sampleLogs.take 1).length ∧
      splitLogs (sampleLogs.take 1) 2 = some [[], sampleLogs.take 1] := by
  decide

/-- C13 (as the code behaves): for the empty record sequence and every worker count
`W ≥ 1`, `splitLogs` returns `W` partitions, all of them empty; `main` returns with
`No logs to process.` and status `1` before it would call `splitLogs`, whatever the
concurrency value is, so no worker is launched for an empty sequence. -/
theorem splitLogs_nil (W : Nat) (hW : 1 ≤ W) :
    splitLogs [] (W : Int) = some (List.replicate W []) ∧
      ∀ h : Nat, mainAfterRead [] h = some MainResult.noLogs := by
  constructor
  · rw [splitLogs_eq [] W hW]
    obtain ⟨w, rfl⟩ : ∃ w, W = w + 1 := ⟨W - 1, by omega⟩
    simp [List.replicate_succ', List.eq_replicate_iff]
  · intro h
    rfl

/-- Witness of C13 with three workers. -/
theorem splitLogs_nil_witness :
    1 ≤ 3 ∧ splitLogs [] ((3 : Nat) : Int) = some (List.replicate 3 []) ∧
      ∀ h : Nat, mainAfterRead [] h = some MainResult.noLogs :=
  ⟨by decide, splitLogs_nil 3 (by decide)⟩

/-- C13 fails as stated: the empty sequence split for one worker gives one (empty)
partition, not zero partitions. -/
theorem empty_split_one_worker :
    splitLogs [] 1 = some [[]] ∧ splitLogs [] 1 ≠ some [] := by
  decide

/-- C14: a record `r` whose level is not exactly `"ERROR"` contributes only to the level
counts: `processLogs (xs ++ [r])` has the error counts of `processLogs xs`, and its level
counts are those of `processLogs xs` with the count at `r.level` incremented by `1` and
every other key unchanged. -/
theorem processLogs_non_error (xs : List LogEntry) (r : LogEntry) (hr : r.level ≠ "ERROR") :
    (processLogs (xs ++ [r])).errorCounts = (processLogs xs).errorCounts ∧
      (processLogs (xs ++ [r])).frequencyByLevel.valueAt r.level =
        (processLogs xs).frequencyByLevel.valueAt r.level + 1 ∧
      r.level ∈ (processLogs (xs ++ [r])).frequencyByLevel ∧
      ∀ L : String, L ≠ r.level →
        (processLogs (xs ++ [r])).frequencyByLevel.lookup L =
          (processLogs xs).frequencyByLevel.lookup L := by
  rw [processLogs_snoc]
  refine ⟨?_, ?_, ?_, ?_⟩
  · rw [processEntry_errorCounts, if_neg hr]
  · rw [processEntry_frequencyByLevel]
    simp [CountMap.valueAt, CountMap.lookup_incr]
  · rw [processEntry_frequencyByLevel, ← AList.lookup_isSome, CountMap.lookup_incr]
    simp
  · intro L hL
    rw [processEntry_frequencyByLevel, CountMap.lookup_incr, if_neg hL]

/-- Witness of C14: the levels `"error"`, `"Error"` and `"WARN"` are not `"ERROR"`; a
record of level `"error"` appended to the sample records. -/
theorem processLogs_non_error_witness :
    ("error" ≠ "ERROR" ∧ "Error" ≠ "ERROR" ∧ "WARN" ≠ "ERROR") ∧
    (processLogs (sampleLogs ++ [⟨"t", "error", " m"⟩])).errorCounts =
        (processLogs sampleLogs).errorCounts ∧
      (processLogs (sampleLogs ++ [⟨"t", "error", " m"⟩])).frequencyByLevel.valueAt "error" =
        (processLogs sampleLogs).frequencyByLevel.valueAt "error" + 1 ∧
      "error" ∈ (processLogs (sampleLogs ++ [⟨"t", "error", " m"⟩])).frequencyByLevel ∧
      ∀ L : String, L ≠ "error" →
        (processLogs (sampleLogs ++ [⟨"t", "error", " m"⟩])).frequencyByLevel.lookup L =
          (processLogs sampleLogs).frequencyByLevel.lookup L :=
  ⟨by decide, processLogs_non_error sampleLogs ⟨"t", "error", " m"⟩ (by decide)⟩


/-! ## Lemmas on the total of a map -/

theorem sum_kerase (k : String) (l : List (Sigma fun _ : String => Int)) :
    ((l.kerase k).map (fun e => e.2)).sum + (l.dlookup k).getD 0 =
      (l.map (fun e => e.2)).sum := by
  induction l with
  | nil => simp
  | cons e l ih =>
    obtain ⟨a, b⟩ := e
    by_cases h : k = a
    · subst h
      simp [add_comm]
    · rw [List.kerase_cons_ne (show k ≠ (⟨a, b⟩ : Sigma fun _ : String => Int).1 from h),
        List.dlookup_cons_ne l _ (show k ≠ (⟨a, b⟩ : Sigma fun _ : String => Int).1 from h)]
      simp only [List.map_cons, List.sum_cons]
      rw [add_assoc, ih]

theorem CountMap.total_addAt (m : CountMap) (k : String) (c : Int) :
    (m.addAt k c).total = m.total + c := by
  have h := sum_kerase k m.entries
  unfold CountMap.total CountMap.addAt CountMap.valueAt
  rw [AList.insert_entries]
  simp only [List.map_cons, List.sum_cons]
  have hl : AList.lookup k m = List.dlookup k m.entries := rfl
  rw [hl]
  omega

theorem CountMap.total_incr (m : CountMap) (k : String) : (m.incr k).total = m.total + 1 :=
  CountMap.total_addAt m k 1

theorem total_foldl_addAt (l : List (Sigma fun _ : String => Int)) (acc : CountMap) :
    (l.foldl (fun a e => CountMap.addAt a e.1 e.2) acc).total =
      acc.total + (l.map (fun e => e.2)).sum := by
  induction l generalizing acc with
  | nil => simp
  | cons e l ih =>
    rw [List.foldl_cons, ih, CountMap.total_addAt]
    simp only [List.map_cons, List.sum_cons]
    omega

theorem total_addAll (acc src : CountMap) : (addAll acc src).total = acc.total + src.total :=
  total_foldl_addAt src.entries acc

theorem total_foldl_addAll (maps : List CountMap) (acc : CountMap) :
    (maps.foldl addAll acc).total = acc.total + (maps.map CountMap.total).sum := by
  induction maps generalizing acc with
  | nil => simp
  | cons m maps ih =>
    rw [List.foldl_cons, ih, total_addAll]
    simp only [List.map_cons, List.sum_cons]
    omega

theorem sum_filterMap_lookup (maps : List CountMap) (k : String) :
    (maps.filterMap (fun m => m.lookup k)).sum = (maps.map (fun m => m.valueAt k)).sum := by
  induction maps with
  | nil => rfl
  | cons m maps ih =>
    cases h : m.lookup k with
    | none => simp [List.filterMap_cons, h, CountMap.valueAt, ih]
    | some v => simp [List.filterMap_cons, h, CountMap.valueAt, ih]

theorem processEntry_balanced (s : ResultSummary) (e : LogEntry) (hs : s.Balanced) :
    (processEntry s e).Balanced := by
  unfold ResultSummary.Balanced at hs ⊢
  rw [processEntry_errorCounts, processEntry_frequencyByLevel]
  unfold CountMap.valueAt at hs ⊢
  rw [CountMap.lookup_incr]
  by_cases hE : e.level = "ERROR"
  · rw [if_pos hE, if_pos hE.symm, CountMap.total_incr, hs, hE]
    simp [CountMap.valueAt]
  · have hE' : ¬ "ERROR" = e.level := fun h => hE h.symm
    rw [if_neg hE, if_neg hE', hs]

theorem processLogs_balanced (logs : List LogEntry) : (processLogs logs).Balanced := by
  induction logs using List.reverseRecOn with
  | nil => rfl
  | append_singleton xs e ih =>
    rw [processLogs_snoc]
    exact processEntry_balanced _ e ih

theorem aggregateResults_balanced (ps : List ResultSummary) (h : ∀ p ∈ ps, p.Balanced) :
    (aggregateResults ps).Balanced := by
  unfold ResultSummary.Balanced
  have h1 : (aggregateResults ps).errorCounts.total =
      (ps.map (fun p => p.errorCounts.total)).sum := by
    unfold aggregateResults
    rw [foldl_mergeInto_errorCounts, total_foldl_addAll, List.map_map]
    simp [ResultSummary.empty, CountMap.total, Function.comp_def]
  have h2 : (aggregateResults ps).frequencyByLevel.valueAt "ERROR" =
      (ps.map (fun p => p.frequencyByLevel.valueAt "ERROR")).sum := by
    rw [CountMap.valueAt, aggregateResults_frequencyByLevel, mergedEntry_getD,
      sum_filterMap_lookup, List.map_map]
    rfl
  rw [h1, h2]
  congr 1
  apply List.map_congr_left
  intro p hp
  exact h p hp


/-- C15: the pipeline in `main` fails exactly when no records were produced.  On an empty
record sequence it writes `No logs to process.`, returns status `1` and displays no summary,
and it does so for every concurrency value, `0` included, so nothing is split or merged.  On
a non-empty sequence with a worker count of at least `1` it returns status `0` and displays
the merge of the per-chunk results.  With a log source on the command line `main` is this
pipeline run on the parsed text of the source, and a source that yields no text gives
status `1`. -/
theorem mainAfterRead_outcome (logs : List LogEntry) (h : Nat) (hh : 1 ≤ h) :
    (∃ r, mainAfterRead logs h = some r ∧ (r.status = 1 ↔ logs = []) ∧
      (logs = [] → r.stderr = "No logs to process.\n" ∧ r.summary = none) ∧
      (logs ≠ [] → r.status = 0 ∧ ∃ chunks, splitLogs logs (h : Int) = some chunks ∧
        r.summary = some (aggregateResults (chunks.map processLogs)))) ∧
    (∀ c : Nat, ∃ r, mainAfterRead [] c = some r ∧ r.status = 1 ∧
      r.stderr = "No logs to process.\n" ∧ r.summary = none) ∧
    (∀ (prog src : String) (rest : List String) (sourceText : String → String),
      main (prog :: src :: rest) sourceText h =
        mainAfterRead (parseLogs (sourceText src)) h) ∧
    (∀ (prog src : String) (c : Nat),
      (main [prog, src] (fun _ => "") c).map MainResult.status = some 1) := by
  refine ⟨?_, fun c => ⟨MainResult.noLogs, rfl, rfl, rfl, rfl⟩, fun _ _ _ _ => rfl,
    fun _ _ _ => rfl⟩
  cases logs with
  | nil => exact ⟨MainResult.noLogs, rfl, by simp [MainResult.status], fun _ => ⟨rfl, rfl⟩,
      fun hne => absurd rfl hne⟩
  | cons x xs =>
    obtain ⟨chunks, hc⟩ : ∃ chunks, splitLogs (x :: xs) (h : Int) = some chunks :=
      ⟨_, splitLogs_eq (x :: xs) h hh⟩
    refine ⟨MainResult.displayed (aggregateResults (chunks.map processLogs)), ?_, ?_, ?_, ?_⟩
    · simp [mainAfterRead, runPipeline, hc]
    · simp [MainResult.status]
    · intro h0
      exact absurd h0 (by simp)
    · intro _
      exact ⟨rfl, chunks, hc, rfl⟩

/-- Witness of C15: the sample records with four workers. -/
theorem mainAfterRead_outcome_witness :
    1 ≤ 4 ∧
    ((∃ r, mainAfterRead sampleLogs 4 = some r ∧ (r.status = 1 ↔ sampleLogs = []) ∧
      (sampleLogs = [] → r.stderr = "No logs to process.\n" ∧ r.summary = none) ∧
      (sampleLogs ≠ [] → r.status = 0 ∧
        ∃ chunks, splitLogs sampleLogs ((4 : Nat) : Int) = some chunks ∧
          r.summary = some (aggregateResults (chunks.map processLogs)))) ∧
    (∀ c : Nat, ∃ r, mainAfterRead [] c = some r ∧ r.status = 1 ∧
      r.stderr = "No logs to process.\n" ∧ r.summary = none) ∧
    (∀ (prog src : String) (rest : List String) (sourceText : String → String),
      main (prog :: src :: rest) sourceText 4 =
        mainAfterRead (parseLogs (sourceText src)) 4) ∧
    (∀ (prog src : String) (c : Nat),
      (main [prog, src] (fun _ => "") c).map MainResult.status = some 1)) ∧
    (mainAfterRead sampleLogs 4).map MainResult.status = some 0 :=
  ⟨by decide, mainAfterRead_outcome sampleLogs 4 (by decide), by decide⟩

/-- C16 at the failing input: with a concurrency value of `0`, `splitLogs` divides by zero
for every record sequence, and the run of `main` on a non-empty sequence has no defined
result: no summary is produced. -/
theorem mainAfterRead_zero_concurrency :
    (∀ logs : List LogEntry, splitLogs logs 0 = none) ∧
      (∀ (r : LogEntry) (rest : List LogEntry), mainAfterRead (r :: rest) 0 = none) ∧
      (mainAfterRead sampleLogs 0).isNone = true :=
  ⟨fun _ => rfl, fun _ _ => rfl, by decide⟩

/-- C17: aggregation is a homomorphism from concatenation to merge: the merge of
`processLogs xs` and `processLogs ys` has the key sets and counts of
`processLogs (xs ++ ys)`, and for every worker count `W ≥ 1` the split / aggregate / merge
pipeline returns a summary with the key sets and counts of `processLogs` of the whole
sequence. -/
theorem aggregate_homomorphism (xs ys logs : List LogEntry) (W : Nat) (hW : 1 ≤ W) :
    ResultSummary.Same (aggregateResults [processLogs xs, processLogs ys])
        (processLogs (xs ++ ys)) ∧
      ∃ s, runPipeline logs (W : Int) = some s ∧ ResultSummary.Same s (processLogs logs) := by
  constructor
  · constructor
    · intro k
      have h := aggregate_process_frequencyByLevel [xs, ys] k
      simp only [List.map_cons, List.map_nil, List.flatten_cons, List.flatten_nil,
        List.append_nil] at h
      rw [h, processLogs_frequencyByLevel]
    · intro k
      have h := aggregate_process_errorCounts [xs, ys] k
      simp only [List.map_cons, List.map_nil, List.flatten_cons, List.flatten_nil,
        List.append_nil] at h
      rw [h, processLogs_errorCounts]
  · obtain ⟨s, hs, hf, he⟩ := runPipeline_lookup logs W hW
    refine ⟨s, hs, fun k => ?_, fun k => ?_⟩
    · rw [hf k, processLogs_frequencyByLevel]
    · rw [he k, processLogs_errorCounts]

/-- Witness of C17 on the sample records, cut after the first record, with two workers. -/
theorem aggregate_homomorphism_witness :
    1 ≤ 2 ∧
    ResultSummary.Same
        (aggregateResults [processLogs (sampleLogs.take 1), processLogs (sampleLogs.drop 1)])
        (processLogs (sampleLogs.take 1 ++ sampleLogs.drop 1)) ∧
      ∃ s, runPipeline sampleLogs ((2 : Nat) : Int) = some s ∧
        ResultSummary.Same s (processLogs sampleLogs) :=
  ⟨by decide, aggregate_homomorphism (sampleLogs.take 1) (sampleLogs.drop 1) sampleLogs 2
    (by decide)⟩

/-- C18: for every record sequence (of any length `N ≥ 0`), every worker count `W ≥ 1`
and every chunk index `i < W`, the chunk built by `splitLogs` starts at offset
`i * (N / W)`, its offsets satisfy `start ≤ end ≤ N`, so the range lies inside the record
sequence, and the chunk is the records from `start` up to `end`. -/
theorem chunk_offsets_in_range (logs : List LogEntry) (W i : Nat) (hW : 1 ≤ W) (hi : i < W) :
    chunkStart (logs.length / W) i = i * (logs.length / W) ∧
      chunkStart (logs.length / W) i ≤ chunkEnd logs.length W (logs.length / W) i ∧
      chunkEnd logs.length W (logs.length / W) i ≤ logs.length ∧
      ∃ chunks, splitLogs logs (W : Int) = some chunks ∧
        chunks[i]? = some ((logs.drop (chunkStart (logs.length / W) i)).take
          (chunkEnd logs.length W (logs.length / W) i - chunkStart (logs.length / W) i)) := by
  have hle := chunk_end_le logs.length W i hi
  have hcopy := copyRange_chunk logs W i hi
  have hbounds : chunkStart (logs.length / W) i ≤ chunkEnd logs.length W (logs.length / W) i ∧
      chunkEnd logs.length W (logs.length / W) i ≤ logs.length := by
    unfold chunkEnd chunkStart
    generalize logs.length / W = cs at hle ⊢
    by_cases hlast : i = W - 1
    · rw [if_pos hlast]
      exact ⟨by omega, le_refl _⟩
    · rw [if_neg hlast]
      exact ⟨by omega, hle⟩
  refine ⟨rfl, hbounds.1, hbounds.2, _, splitLogs_eq logs W hW, ?_⟩
  have hval : (logs.drop (chunkStart (logs.length / W) i)).take
      (chunkEnd logs.length W (logs.length / W) i - chunkStart (logs.length / W) i) =
      (if i = W - 1 then logs.drop (i * (logs.length / W))
        else (logs.drop (i * (logs.length / W))).take (logs.length / W)) := by
    unfold copyRange at hcopy
    rw [if_pos hbounds] at hcopy
    exact Option.some.inj hcopy
  rw [hval]
  have hlen : ((List.range (W - 1)).map
      (fun i => (logs.drop (i * (logs.length / W))).take (logs.length / W))).length = W - 1 := by
    simp
  by_cases hlast : i = W - 1
  · rw [if_pos hlast, hlast, List.getElem?_append_right (by rw [hlen]), hlen]
    simp
  · have hi' : i < W - 1 := by omega
    rw [if_neg hlast, List.getElem?_append_left (by rw [hlen]; exact hi'),
      List.getElem?_map, List.getElem?_range hi']
    rfl

/-- Witness of C18: three records, five workers, chunk `1` is the empty range at
offset `0` and chunk `4` is the range from `0` to `3`. -/
theorem chunk_offsets_in_range_witness :
    (1 ≤ 5 ∧ 1 < 5 ∧
      chunkStart (sampleLogs.length / 5) 1 = 1 * (sampleLogs.length / 5) ∧
      chunkStart (sampleLogs.length / 5) 1 ≤
        chunkEnd sampleLogs.length 5 (sampleLogs.length / 5) 1 ∧
      chunkEnd sampleLogs.length 5 (sampleLogs.length / 5) 1 ≤ sampleLogs.length ∧
      ∃ chunks, splitLogs sampleLogs ((5 : Nat) : Int) = some chunks ∧
        chunks[1]? = some ((sampleLogs.drop (chunkStart (sampleLogs.length / 5) 1)).take
          (chunkEnd sampleLogs.length 5 (sampleLogs.length / 5) 1 -
            chunkStart (sampleLogs.length / 5) 1))) ∧
    chunkStart (sampleLogs.length / 5) 4 = 0 ∧
    chunkEnd sampleLogs.length 5 (sampleLogs.length / 5) 4 = 3 :=
  ⟨⟨by decide, by decide, chunk_offsets_in_range sampleLogs 5 1 (by decide) (by decide)⟩,
    by decide, by decide⟩

/-! ## The merge on `int` counts -/

theorem wrapInt_of_inIntRange (x : Int) (h : inIntRange x = true) : wrapInt x = x := by
  unfold inIntRange at h
  simp only [Bool.and_eq_true, decide_eq_true_eq] at h
  unfold wrapInt
  omega

theorem foldl_addAt32_eq (l : List (Sigma fun _ : String => Int)) (hl : l.NodupKeys)
    (acc : CountMap) (h : l.all (fun e => inIntRange (acc.valueAt e.1 + e.2)) = true) :
    l.foldl (fun a e => CountMap.addAt32 a e.1 e.2) acc =
      l.foldl (fun a e => CountMap.addAt a e.1 e.2) acc := by
  induction l generalizing acc with
  | nil => rfl
  | cons e l ih =>
    obtain ⟨hnot, hl'⟩ := List.nodupKeys_cons.mp hl
    rw [List.all_cons, Bool.and_eq_true] at h
    obtain ⟨he, hrest⟩ := h
    have hstep : CountMap.addAt32 acc e.1 e.2 = CountMap.addAt acc e.1 e.2 := by
      unfold CountMap.addAt32 CountMap.addAt
      rw [wrapInt_of_inIntRange _ he]
    rw [List.foldl_cons, List.foldl_cons, hstep]
    apply ih hl'
    rw [List.all_eq_true] at hrest ⊢
    intro e' he'
    have hne : e'.1 ≠ e.1 := by
      intro h0
      apply hnot
      rw [← h0]
      exact List.mem_keys_of_mem he'
    have hv : (CountMap.addAt acc e.1 e.2).valueAt e'.1 = acc.valueAt e'.1 := by
      unfold CountMap.valueAt
      rw [CountMap.lookup_addAt, if_neg hne]
    rw [hv]
    exact hrest e' he'

theorem addAll32_eq (acc src : CountMap) (h : addAllInRange acc src = true) :
    addAll32 acc src = addAll acc src :=
  foldl_addAt32_eq src.entries src.nodupKeys acc h

theorem foldl_addAll32_eq (maps : List CountMap) (acc : CountMap)
    (h : mergeInRange acc maps = true) : maps.foldl addAll32 acc = maps.foldl addAll acc := by
  induction maps generalizing acc with
  | nil => rfl
  | cons m ms ih =>
    unfold mergeInRange at h
    rw [Bool.and_eq_true] at h
    rw [List.foldl_cons, List.foldl_cons, addAll32_eq acc m h.1]
    exact ih _ h.2

theorem foldl_mergeInto32_frequencyByLevel (ps : List ResultSummary) (acc : ResultSummary) :
    (ps.foldl mergeInto32 acc).frequencyByLevel =
      (ps.map (fun p => p.frequencyByLevel)).foldl addAll32 acc.frequencyByLevel := by
  induction ps generalizing acc with
  | nil => rfl
  | cons p ps ih => simp [List.foldl_cons, ih, mergeInto32]

theorem foldl_mergeInto32_errorCounts (ps : List ResultSummary) (acc : ResultSummary) :
    (ps.foldl mergeInto32 acc).errorCounts =
      (ps.map (fun p => p.errorCounts)).foldl addAll32 acc.errorCounts := by
  induction ps generalizing acc with
  | nil => rfl
  | cons p ps ih => simp [List.foldl_cons, ih, mergeInto32]

/-- As long as no addition leaves the range of `int`, the merge on `int` counts is the
merge with exact sums. -/
theorem aggregateResults32_eq_of_inRange (ps : List ResultSummary)
    (h : aggregateInRange ps = true) : aggregateResults32 ps = aggregateResults ps := by
  unfold aggregateInRange at h
  rw [Bool.and_eq_true] at h
  have hf : (aggregateResults32 ps).frequencyByLevel = (aggregateResults ps).frequencyByLevel := by
    unfold aggregateResults32 aggregateResults
    rw [foldl_mergeInto32_frequencyByLevel, foldl_mergeInto_frequencyByLevel]
    exact foldl_addAll32_eq _ _ h.1
  have he : (aggregateResults32 ps).errorCounts = (aggregateResults ps).errorCounts := by
    unfold aggregateResults32 aggregateResults
    rw [foldl_mergeInto32_errorCounts, foldl_mergeInto_errorCounts]
    exact foldl_addAll32_eq _ _ h.2
  cases h32 : aggregateResults32 ps with
  | mk f32 e32 =>
    cases hex : aggregateResults ps with
    | mk f e =>
      rw [h32, hex] at hf he
      simp only at hf he
      rw [hf, he]


theorem wrapInt_wrapInt_add (a b : Int) : wrapInt (wrapInt a + b) = wrapInt (a + b) := by
  unfold wrapInt
  omega

theorem wrapInt_add_wrapInt (a b : Int) :
    wrapInt (wrapInt a + wrapInt b) = wrapInt (a + b) := by
  unfold wrapInt
  omega

theorem wrapInt_idem (a : Int) : wrapInt (wrapInt a) = wrapInt a := by
  unfold wrapInt
  omega

theorem CountMap.lookup_addAt32 (m : CountMap) (k : String) (c : Int) (k' : String) :
    (m.addAt32 k c).lookup k' =
      if k' = k then some (wrapInt (m.valueAt k + c)) else m.lookup k' := by
  unfold CountMap.addAt32
  by_cases h : k' = k
  · subst h
    simp
  · simp [h, AList.lookup_insert_ne h]

theorem lookup_foldl_addAt32 (l : List (Sigma fun _ : String => Int)) (hl : l.NodupKeys)
    (acc : CountMap) (k : String) :
    (l.foldl (fun a e => CountMap.addAt32 a e.1 e.2) acc).lookup k =
      match l.dlookup k with
      | some v => some (wrapInt (acc.valueAt k + v))
      | none => acc.lookup k := by
  induction l generalizing acc with
  | nil => simp
  | cons e l ih =>
    obtain ⟨hnot, hl'⟩ := List.nodupKeys_cons.mp hl
    rw [List.foldl_cons, ih hl']
    by_cases h : e.1 = k
    · subst h
      have hnone : List.dlookup e.1 l = none := List.dlookup_eq_none.mpr hnot
      obtain ⟨a, b⟩ := e
      simp [hnone, CountMap.lookup_addAt32, List.dlookup_cons_eq]
    · have h' : ¬ k = e.1 := fun h1 => h h1.symm
      rw [List.dlookup_cons_ne l e h']
      simp [CountMap.valueAt, CountMap.lookup_addAt32, h']

theorem lookup_addAll32 (acc src : CountMap) (k : String) :
    (addAll32 acc src).lookup k =
      match src.lookup k with
      | some v => some (wrapInt (acc.valueAt k + v))
      | none => acc.lookup k :=
  lookup_foldl_addAt32 src.entries src.nodupKeys acc k

theorem lookup_foldl_addAll32 (maps : List CountMap) (k : String) :
    (maps.foldl addAll32 ∅).lookup k = (mergedEntry maps k).map wrapInt := by
  induction maps using List.reverseRecOn generalizing k with
  | nil => simp [mergedEntry_nil]
  | append_singleton ms m ih =>
    have hv : (ms.foldl addAll32 ∅).valueAt k = wrapInt ((mergedEntry ms k).getD 0) := by
      unfold CountMap.valueAt
      rw [ih]
      cases mergedEntry ms k with
      | none => rfl
      | some v => rfl
    rw [List.foldl_append, List.foldl_cons, List.foldl_nil, lookup_addAll32, mergedEntry_snoc,
      hv, ih]
    cases AList.lookup k m with
    | none => rfl
    | some v => simp [wrapInt_wrapInt_add]

theorem aggregateResults32_frequencyByLevel (ps : List ResultSummary) (k : String) :
    (aggregateResults32 ps).frequencyByLevel.lookup k =
      (mergedEntry (ps.map (fun p => p.frequencyByLevel)) k).map wrapInt := by
  unfold aggregateResults32
  rw [foldl_mergeInto32_frequencyByLevel]
  exact lookup_foldl_addAll32 _ k

theorem aggregateResults32_errorCounts (ps : List ResultSummary) (k : String) :
    (aggregateResults32 ps).errorCounts.lookup k =
      (mergedEntry (ps.map (fun p => p.errorCounts)) k).map wrapInt := by
  unfold aggregateResults32
  rw [foldl_mergeInto32_errorCounts]
  exact lookup_foldl_addAll32 _ k

/-- The merge on `int` counts gives the same summary for every permutation of the partial
summaries, as the merge with exact sums does. -/
theorem aggregateResults32_perm_invariant (ps qs : List ResultSummary) (h : ps.Perm qs) :
    ResultSummary.Same (aggregateResults32 ps) (aggregateResults32 qs) := by
  constructor
  · intro k
    rw [aggregateResults32_frequencyByLevel, aggregateResults32_frequencyByLevel,
      mergedEntry_perm (h.map _) k]
  · intro k
    rw [aggregateResults32_errorCounts, aggregateResults32_errorCounts,
      mergedEntry_perm (h.map _) k]

theorem mergedEntry_pair32 (X Y : List CountMap) (A B : CountMap) (k : String)
    (hA : A.lookup k = (mergedEntry X k).map wrapInt)
    (hB : B.lookup k = (mergedEntry Y k).map wrapInt) :
    (mergedEntry (X ++ Y) k).map wrapInt = (mergedEntry [A, B] k).map wrapInt := by
  unfold mergedEntry at hA hB ⊢
  simp only [List.filterMap_append, List.filterMap_cons, List.filterMap_nil, hA, hB]
  by_cases hx : X.filterMap (fun m => m.lookup k) = []
  · by_cases hy : Y.filterMap (fun m => m.lookup k) = []
    · simp [hx, hy]
    · simp [hx, hy, wrapInt_idem]
  · by_cases hy : Y.filterMap (fun m => m.lookup k) = []
    · simp [hx, hy, wrapInt_idem]
    · simp [hx, hy, wrapInt_add_wrapInt]

/-- The merge on `int` counts does not depend on the grouping, as the merge with exact
sums does not. -/
theorem aggregateResults32_grouping_invariant (xs ys : List ResultSummary) :
    ResultSummary.Same (aggregateResults32 (xs ++ ys))
      (aggregateResults32 [aggregateResults32 xs, aggregateResults32 ys]) := by
  constructor
  · intro k
    rw [aggregateResults32_frequencyByLevel, aggregateResults32_frequencyByLevel,
      List.map_append]
    exact mergedEntry_pair32 _ _ _ _ k (aggregateResults32_frequencyByLevel xs k)
      (aggregateResults32_frequencyByLevel ys k)
  · intro k
    rw [aggregateResults32_errorCounts, aggregateResults32_errorCounts, List.map_append]
    exact mergedEntry_pair32 _ _ _ _ k (aggregateResults32_errorCounts xs k)
      (aggregateResults32_errorCounts ys k)

/-- C6 (as the code behaves): for every list of partial summaries for which no addition of
the merge leaves the range of `int`, the key set of `frequencyByLevel` in the result of
`aggregateResults` is the union of the key sets of the partial summaries, each key holds
the sum of its counts over the partial summaries that contain it, likewise for
`errorCounts`, and the empty list gives the empty summary. -/
theorem aggregateResults32_union_sum (ps : List ResultSummary)
    (h : aggregateInRange ps = true) :
    (∀ k : String,
      (k ∈ (aggregateResults32 ps).frequencyByLevel ↔ ∃ p ∈ ps, k ∈ p.frequencyByLevel) ∧
        (aggregateResults32 ps).frequencyByLevel.valueAt k =
          (ps.filterMap (fun p => p.frequencyByLevel.lookup k)).sum) ∧
    (∀ k : String,
      (k ∈ (aggregateResults32 ps).errorCounts ↔ ∃ p ∈ ps, k ∈ p.errorCounts) ∧
        (aggregateResults32 ps).errorCounts.valueAt k =
          (ps.filterMap (fun p => p.errorCounts.lookup k)).sum) ∧
    aggregateResults32 [] = ResultSummary.empty := by
  rw [aggregateResults32_eq_of_inRange ps h]
  obtain ⟨hf, he, -⟩ := aggregateResults_exact_union_sum ps
  exact ⟨hf, he, rfl⟩

/-- Witness of C6: the two sample summaries merge without leaving the range of `int`; the
merged level map holds `ERROR ↦ 2`. -/
theorem aggregateResults32_union_sum_witness :
    aggregateInRange [sampleSummaryA, sampleSummaryB] = true ∧
    ((∀ k : String,
      (k ∈ (aggregateResults32 [sampleSummaryA, sampleSummaryB]).frequencyByLevel ↔
          ∃ p ∈ [sampleSummaryA, sampleSummaryB], k ∈ p.frequencyByLevel) ∧
        (aggregateResults32 [sampleSummaryA, sampleSummaryB]).frequencyByLevel.valueAt k =
          ([sampleSummaryA, sampleSummaryB].filterMap
            (fun p => p.frequencyByLevel.lookup k)).sum) ∧
    (∀ k : String,
      (k ∈ (aggregateResults32 [sampleSummaryA, sampleSummaryB]).errorCounts ↔
          ∃ p ∈ [sampleSummaryA, sampleSummaryB], k ∈ p.errorCounts) ∧
        (aggregateResults32 [sampleSummaryA, sampleSummaryB]).errorCounts.valueAt k =
          ([sampleSummaryA, sampleSummaryB].filterMap
            (fun p => p.errorCounts.lookup k)).sum) ∧
    aggregateResults32 [] = ResultSummary.empty) ∧
    (aggregateResults32 [sampleSummaryA, sampleSummaryB]).frequencyByLevel.lookup "ERROR"
      = some 2 :=
  ⟨by decide, aggregateResults32_union_sum [sampleSummaryA, sampleSummaryB] (by decide),
    by decide⟩

/-- C6 fails as stated: the counts `2147483647` and `1` of the key `"ERROR"` lie in the
range of `int` and add up to `2147483648`, but the merged map holds `-2147483648` at that
key. -/
theorem aggregateResults32_sum_overflows :
    fullSummary.frequencyByLevel.lookup "ERROR" = some 2147483647 ∧
      unitSummary.frequencyByLevel.lookup "ERROR" = some 1 ∧
      ([fullSummary, unitSummary].filterMap
        (fun p => p.frequencyByLevel.lookup "ERROR")).sum = 2147483648 ∧
      (aggregateResults32 [fullSummary, unitSummary]).frequencyByLevel.lookup "ERROR"
        = some (-2147483648) ∧
      (aggregateResults32 [fullSummary, unitSummary]).frequencyByLevel.valueAt "ERROR"
        ≠ ([fullSummary, unitSummary].filterMap
            (fun p => p.frequencyByLevel.lookup "ERROR")).sum := by
  decide

/-- C19 (as the code behaves): every summary returned by `processLogs` is balanced, i.e.
the counts of `errorCounts` add up to `frequencyByLevel["ERROR"]` (`0` when the key is
absent), and `aggregateResults` preserves it as long as no addition of the merge leaves the
range of `int`: when every partial summary is balanced, so is the merged summary. -/
theorem summaries32_balanced (logs : List LogEntry) (ps : List ResultSummary)
    (h : ∀ p ∈ ps, p.Balanced) (hr : aggregateInRange ps = true) :
    (processLogs logs).Balanced ∧ (aggregateResults32 ps).Balanced := by
  rw [aggregateResults32_eq_of_inRange ps hr]
  exact ⟨processLogs_balanced logs, aggregateResults_balanced ps h⟩

/-- Witness of C19: the two sample summaries are balanced and merge without leaving the
range of `int`; their merge is balanced, with the error counts adding up to `2`. -/
theorem summaries32_balanced_witness :
    (∀ p ∈ [sampleSummaryA, sampleSummaryB], p.Balanced) ∧
      aggregateInRange [sampleSummaryA, sampleSummaryB] = true ∧
      ((processLogs sampleLogs).Balanced ∧
        (aggregateResults32 [sampleSummaryA, sampleSummaryB]).Balanced) ∧
      (aggregateResults32 [sampleSummaryA, sampleSummaryB]).errorCounts.total = 2 :=
  have hb : ∀ p ∈ [sampleSummaryA, sampleSummaryB], p.Balanced := by
    intro p hp
    simp only [List.mem_cons, List.mem_singleton, List.not_mem_nil, or_false] at hp
    rcases hp with rfl | rfl
    · show sampleSummaryA.errorCounts.total = sampleSummaryA.frequencyByLevel.valueAt "ERROR"
      decide
    · show sampleSummaryB.errorCounts.total = sampleSummaryB.frequencyByLevel.valueAt "ERROR"
      decide
  ⟨hb, by decide,
    summaries32_balanced sampleLogs [sampleSummaryA, sampleSummaryB] hb (by decide),
    by decide⟩

/-- C19 fails as stated: two balanced summaries whose counts lie in the range of `int`
merge into a summary that is not balanced: the error counts add up to `2147483648` while
`frequencyByLevel["ERROR"]` is `-2147483648`. -/
theorem merge_overflow_unbalanced :
    fullSummary.Balanced ∧ unitSummary.Balanced ∧
      ¬ (aggregateResults32 [fullSummary, unitSummary]).Balanced ∧
      (aggregateResults32 [fullSummary, unitSummary]).errorCounts.total = 2147483648 ∧
      (aggregateResults32 [fullSummary, unitSummary]).frequencyByLevel.valueAt "ERROR"
        = -2147483648 := by
  unfold ResultSummary.Balanced
  decide

end AggreGator
